import Mathlib

/-!
Verification of the caskada orchestration engine (src/python/caskada.py)
against its natural-language specification.

The Python engine is shallowly embedded: dictionaries become association
lists, object references become addresses into an explicit heap of stores
(so that aliasing and isolation facts are expressible), and exceptions
become Option/Except results.
-/

namespace Caskada

/-! ## Stores: python dictionaries of string keys

Values are modelled as natural numbers; all claims only compare values for
equality. A store is an insertion-ordered association list: assignment to
an existing key keeps its position (python dict semantics), assignment to
a fresh key appends.
-/

abbrev Key := String
abbrev Val := Nat
abbrev Store := List (Key × Val)

def Store.lookup : Store → Key → Option Val
  | [], _ => none
  | (k, v) :: rest, key => if k = key then some v else Store.lookup rest key

def Store.contains (s : Store) (k : Key) : Bool := (s.lookup k).isSome

def Store.insert : Store → Key → Val → Store
  | [], key, v => [(key, v)]
  | (k, w) :: rest, key, v =>
    if k = key then (k, v) :: rest else (k, w) :: Store.insert rest key v

def Store.erase (s : Store) (key : Key) : Store := s.filter (fun p => p.1 ≠ key)

/-- Python dict.update: entries of the argument override same-keyed entries. -/
def Store.updateWith (s : Store) (t : Store) : Store :=
  t.foldl (fun acc p => acc.insert p.1 p.2) s

/-! ## Heap of stores

Python store objects are mutable and aliased (the Memory clone shares the
global dict by reference). We model object identity with addresses into a
heap: a list of stores, allocation appends at the end.
-/

structure Heap where
  cells : List Store

def Heap.length (h : Heap) : Nat := h.cells.length

def Heap.get (h : Heap) (a : Nat) : Store := h.cells.getD a []

def Heap.set (h : Heap) (a : Nat) (s : Store) : Heap := ⟨h.cells.set a s⟩

def Heap.update (h : Heap) (a : Nat) (f : Store → Store) : Heap := h.set a (f (h.get a))

def Heap.alloc (h : Heap) (s : Store) : Nat × Heap := (h.cells.length, ⟨h.cells ++ [s]⟩)

/-! ## Memory (caskada.py lines 51-78)

A Memory holds references to two stores: the shared global store and the
branch-private local store.
-/

structure Memory where
  globalAddr : Nat
  localAddr : Nat
deriving DecidableEq

/-- Well-formedness: both addresses are live heap cells and are distinct
objects (Memory.__init__ always receives two distinct dict objects). -/
def Memory.Valid (m : Memory) (h : Heap) : Prop :=
  m.globalAddr < h.length ∧ m.localAddr < h.length ∧ m.globalAddr ≠ m.localAddr

instance (m : Memory) (h : Heap) : Decidable (m.Valid h) := by
  unfold Memory.Valid; infer_instance

/-- Model of _get_from_stores(key, self._local, self._global) used by both
__getattr__ and __getitem__ (caskada.py lines 27-30, 60-61): the local
store is checked first, then the global store; none models the
KeyError/AttributeError raised when the key is in neither. -/
def Memory.getValue (m : Memory) (h : Heap) (k : Key) : Option Val :=
  match (h.get m.localAddr).lookup k with
  | some v => some v
  | none => (h.get m.globalAddr).lookup k

def reservedKeys : List Key := ["global", "local", "_global", "_local", "clone", "create"]

/-- Model of Memory._set_value (caskada.py lines 62-68), used by both
__setattr__ and __setitem__: reserved keys fail the leading assert (none,
with the heap untouched since the assert precedes every mutation);
otherwise the key is deleted from the local store if present there and the
value is written to the global store. -/
def Memory.setValue (m : Memory) (h : Heap) (k : Key) (v : Val) : Option Heap :=
  if k ∈ reservedKeys then none
  else
    let h1 := if (h.get m.localAddr).contains k
              then h.update m.localAddr (fun s => s.erase k) else h
    some (h1.update m.globalAddr (fun s => s.insert k v))

/-- Model of Memory.clone (caskada.py lines 72-75): deep-copy the local
store, merge in a deep copy of the forking data (forking entries win),
allocate the result as a fresh object, and share the global store by
reference (same address). -/
def Memory.clone (m : Memory) (h : Heap) (forkingData : Store) : Memory × Heap :=
  let newLocal := (h.get m.localAddr).updateWith forkingData
  let (la, h') := h.alloc newLocal
  (⟨m.globalAddr, la⟩, h')

/-- Model of LocalProxy.__setitem__ / __setattr__ (caskada.py lines 41-42):
a write through the local accessor targets only the local store. Used here
to express mutation of a local store after cloning. -/
def Memory.setLocal (m : Memory) (h : Heap) (k : Key) (v : Val) : Heap :=
  h.update m.localAddr (fun s => s.insert k v)

/-! ### Store and heap lemmas -/

theorem lookup_insert_self (s : Store) (k : Key) (v : Val) :
    Store.lookup (Store.insert s k v) k = some v := by
  induction s with
  | nil => simp [Store.insert, Store.lookup]
  | cons p rest ih =>
    by_cases hk : p.1 = k
    · simp [Store.insert, hk, Store.lookup]
    · simp [Store.insert, hk, Store.lookup, ih]

theorem lookup_insert_ne (s : Store) (k k' : Key) (v : Val) (hne : k ≠ k') :
    Store.lookup (Store.insert s k v) k' = Store.lookup s k' := by
  induction s with
  | nil => simp [Store.insert, Store.lookup, hne]
  | cons p rest ih =>
    by_cases hk : p.1 = k
    · simp [Store.insert, hk, Store.lookup, hne]
    · by_cases hk' : p.1 = k'
      · simp [Store.insert, hk, Store.lookup, hk', Ne.symm hne]
      · simp [Store.insert, hk, Store.lookup, hk', ih]

theorem lookup_erase_self (s : Store) (k : Key) :
    Store.lookup (Store.erase s k) k = none := by
  induction s with
  | nil => simp [Store.erase, Store.lookup]
  | cons p rest ih =>
    by_cases hk : p.1 = k
    · simpa [Store.erase, List.filter_cons, hk] using ih
    · simpa [Store.erase, List.filter_cons, hk, Store.lookup] using ih

theorem lookup_none_of_not_mem_keys (f : Store) (k : Key) (hk : k ∉ f.map Prod.fst) :
    Store.lookup f k = none := by
  induction f with
  | nil => simp [Store.lookup]
  | cons p rest ih =>
    simp only [List.map_cons, List.mem_cons, not_or] at hk
    simp [Store.lookup, Ne.symm hk.1, ih hk.2]

theorem Heap.get_update_self (h : Heap) (a : Nat) (f : Store → Store) (ha : a < h.length) :
    (h.update a f).get a = f (h.get a) := by
  simp only [Heap.update, Heap.set, Heap.get, Heap.length] at *
  simp [List.getD, List.getElem?_set_self ha]

theorem Heap.get_update_ne (h : Heap) (a b : Nat) (f : Store → Store) (hne : a ≠ b) :
    (h.update a f).get b = h.get b := by
  simp only [Heap.update, Heap.set, Heap.get]
  simp [List.getD, List.getElem?_set_ne hne]

theorem Heap.get_alloc_old (h : Heap) (s : Store) (a : Nat) (ha : a < h.length) :
    (h.alloc s).2.get a = h.get a := by
  simp only [Heap.alloc, Heap.get, Heap.length] at *
  simp [List.getD, List.getElem?_append_left ha]

theorem Heap.get_alloc_new (h : Heap) (s : Store) :
    (h.alloc s).2.get (h.alloc s).1 = s := by
  simp [Heap.alloc, Heap.get, List.getD]

theorem lookup_updateWith_nodup (f : Store) (hnd : (f.map Prod.fst).Nodup) :
    ∀ (s : Store) (k : Key),
      Store.lookup (Store.updateWith s f) k =
        match Store.lookup f k with
        | some v => some v
        | none => Store.lookup s k := by
  induction f with
  | nil => intro s k; simp [Store.updateWith, Store.lookup]
  | cons p rest ih =>
    intro s k
    simp only [List.map_cons, List.nodup_cons] at hnd
    have step : Store.updateWith s (p :: rest)
        = Store.updateWith (Store.insert s p.1 p.2) rest := by
      simp [Store.updateWith]
    rw [step, ih hnd.2]
    by_cases hk : k = p.1
    · rw [hk, lookup_none_of_not_mem_keys rest p.1 hnd.1]
      simp [Store.lookup, lookup_insert_self]
    · cases hr : Store.lookup rest k with
      | some v => simp [Store.lookup, Ne.symm hk, hr]
      | none =>
        rw [lookup_insert_ne s p.1 k p.2 (Ne.symm hk)]
        simp [Store.lookup, Ne.symm hk, hr]

theorem Heap.length_update (h : Heap) (a : Nat) (f : Store → Store) :
    (h.update a f).length = h.length := by
  simp [Heap.update, Heap.set, Heap.length]

theorem contains_false_of_lookup_none (s : Store) (k : Key)
    (hl : Store.lookup s k = none) : Store.contains s k = false := by
  simp [Store.contains, hl]

/-! ## Claims about Memory -/

/-- C2: for every Memory and key present in both tiers, get (indexed or
attribute access) returns the local value; and whenever set(k, v) succeeds
(produces an updated heap, rather than failing the reserved-key assert),
get(k) afterwards returns v, k is absent from the local tier even if it
was previously shadowed there, and the global tier maps k to v. -/
theorem C2_memory_shadowing (m : Memory) (h h' : Heap) (k : Key) (v w : Val)
    (hv : m.Valid h) :
    (Store.lookup (h.get m.localAddr) k = some w →
       Store.contains (h.get m.globalAddr) k = true →
       m.getValue h k = some w) ∧
    (m.setValue h k v = some h' →
       m.getValue h' k = some v ∧
       Store.contains (h'.get m.localAddr) k = false ∧
       Store.lookup (h'.get m.globalAddr) k = some v) := by
  obtain ⟨hg, hl, hne⟩ := hv
  constructor
  · intro hloc _
    simp [Memory.getValue, hloc]
  · intro hset
    simp only [Memory.setValue] at hset
    by_cases hres : k ∈ reservedKeys
    · simp [hres] at hset
    · simp only [hres, if_false, Option.some.injEq] at hset
      set h1 := if Store.contains (h.get m.localAddr) k
                then h.update m.localAddr (fun s => Store.erase s k) else h with hh1
      have hlen1 : h1.length = h.length := by
        rw [hh1]; split <;> simp [Heap.length_update]
      have hlocal1 : Store.lookup (h1.get m.localAddr) k = none := by
        rw [hh1]
        cases hc : Store.contains (h.get m.localAddr) k with
        | true =>
          simp only [hc, if_true]
          rw [Heap.get_update_self h m.localAddr _ hl]
          exact lookup_erase_self _ k
        | false =>
          simp only [hc, Bool.false_eq_true, if_false]
          simpa [Store.contains] using hc
      have hlocal' : (h'.get m.localAddr) = (h1.get m.localAddr) := by
        rw [← hset]
        exact Heap.get_update_ne h1 m.globalAddr m.localAddr _ hne
      have hglobal' : Store.lookup (h'.get m.globalAddr) k = some v := by
        rw [← hset]
        rw [Heap.get_update_self h1 m.globalAddr _ (by rw [hlen1]; exact hg)]
        exact lookup_insert_self _ k v
      refine ⟨?_, ?_, hglobal'⟩
      · simp [Memory.getValue, hlocal', hlocal1, hglobal']
      · rw [hlocal']
        exact contains_false_of_lookup_none _ k hlocal1

/-- C2 witness: concrete instance with key shadowed in both tiers, then
written through set. -/
theorem C2_memory_shadowing_witness :
    ((⟨0, 1⟩ : Memory).getValue ⟨[[("k", 2)], [("k", 7)]]⟩ "k" = some 7) ∧
    ((⟨0, 1⟩ : Memory).getValue ⟨[[("k", 5)], []]⟩ "k" = some 5 ∧
     Store.contains ((⟨[[("k", 5)], []]⟩ : Heap).get 1) "k" = false ∧
     Store.lookup ((⟨[[("k", 5)], []]⟩ : Heap).get 0) "k" = some 5) :=
  ⟨(C2_memory_shadowing ⟨0, 1⟩ ⟨[[("k", 2)], [("k", 7)]]⟩ ⟨[[("k", 5)], []]⟩
      "k" 5 7 (by decide)).1 (by decide) (by decide),
   (C2_memory_shadowing ⟨0, 1⟩ ⟨[[("k", 2)], [("k", 7)]]⟩ ⟨[[("k", 5)], []]⟩
      "k" 5 7 (by decide)).2 rfl⟩

/-- C3: clone does not mutate the receiver; the local store of the clone is
a value-equal but reference-distinct copy of the receiver local store
merged with the forking data (forking entries taking precedence); mutating
either local store afterwards never affects the other; and the global
store of the clone is the very same object (same address). -/
theorem C3_clone_isolation (m : Memory) (h : Heap) (f : Store) (hv : m.Valid h) :
    (∀ a, a < h.length → (m.clone h f).2.get a = h.get a) ∧
    ((m.clone h f).2.get (m.clone h f).1.localAddr
        = Store.updateWith (h.get m.localAddr) f) ∧
    ((f.map Prod.fst).Nodup → ∀ k,
        Store.lookup ((m.clone h f).2.get (m.clone h f).1.localAddr) k
          = match Store.lookup f k with
            | some v => some v
            | none => Store.lookup (h.get m.localAddr) k) ∧
    ((m.clone h f).1.localAddr ≠ m.localAddr) ∧
    (∀ g : Store → Store,
        ((m.clone h f).2.update (m.clone h f).1.localAddr g).get m.localAddr
          = (m.clone h f).2.get m.localAddr ∧
        ((m.clone h f).2.update m.localAddr g).get (m.clone h f).1.localAddr
          = (m.clone h f).2.get (m.clone h f).1.localAddr) ∧
    ((m.clone h f).1.globalAddr = m.globalAddr) := by
  obtain ⟨hg, hl, hne⟩ := hv
  have e1 : (m.clone h f).1 = ⟨m.globalAddr, h.length⟩ := by
    simp [Memory.clone, Heap.alloc, Heap.length]
  have e2 : (m.clone h f).2 = (h.alloc (Store.updateWith (h.get m.localAddr) f)).2 := by
    simp [Memory.clone]
  have hfresh : h.length ≠ m.localAddr := Nat.ne_of_gt hl
  refine ⟨?_, ?_, ?_, ?_, ?_, ?_⟩
  · intro a ha
    rw [e2]; exact Heap.get_alloc_old h _ a ha
  · rw [e1, e2]
    exact Heap.get_alloc_new h _
  · intro hnd k
    rw [e1, e2]
    rw [show ((⟨m.globalAddr, h.length⟩ : Memory).localAddr) = (h.alloc (Store.updateWith (h.get m.localAddr) f)).1 from rfl]
    rw [Heap.get_alloc_new h _]
    exact lookup_updateWith_nodup f hnd (h.get m.localAddr) k
  · rw [e1]; exact hfresh
  · intro g
    constructor
    · rw [e1]
      exact Heap.get_update_ne _ h.length m.localAddr g hfresh
    · rw [e1]
      exact Heap.get_update_ne _ m.localAddr h.length g (Ne.symm hfresh)
  · rw [e1]

/-- C3 witness: concrete clone of a two-cell heap with overlapping forking
data. -/
theorem C3_clone_isolation_witness :
    ((⟨0, 1⟩ : Memory).Valid ⟨[[("a", 1)], [("b", 2), ("c", 3)]]⟩) ∧
    ((∀ a, a < (⟨[[("a", 1)], [("b", 2), ("c", 3)]]⟩ : Heap).length →
        ((⟨0, 1⟩ : Memory).clone ⟨[[("a", 1)], [("b", 2), ("c", 3)]]⟩
            [("c", 9), ("d", 4)]).2.get a
          = (⟨[[("a", 1)], [("b", 2), ("c", 3)]]⟩ : Heap).get a) ∧
     (((⟨0, 1⟩ : Memory).clone ⟨[[("a", 1)], [("b", 2), ("c", 3)]]⟩
            [("c", 9), ("d", 4)]).2.get
          ((⟨0, 1⟩ : Memory).clone ⟨[[("a", 1)], [("b", 2), ("c", 3)]]⟩
            [("c", 9), ("d", 4)]).1.localAddr
        = Store.updateWith
            ((⟨[[("a", 1)], [("b", 2), ("c", 3)]]⟩ : Heap).get 1)
            [("c", 9), ("d", 4)]) ∧
     (∀ k,
        Store.lookup
            (((⟨0, 1⟩ : Memory).clone ⟨[[("a", 1)], [("b", 2), ("c", 3)]]⟩
                [("c", 9), ("d", 4)]).2.get
              ((⟨0, 1⟩ : Memory).clone ⟨[[("a", 1)], [("b", 2), ("c", 3)]]⟩
                [("c", 9), ("d", 4)]).1.localAddr) k
          = match Store.lookup [("c", 9), ("d", 4)] k with
            | some v => some v
            | none => Store.lookup ((⟨[[("a", 1)], [("b", 2), ("c", 3)]]⟩ : Heap).get 1) k) ∧
     (((⟨0, 1⟩ : Memory).clone ⟨[[("a", 1)], [("b", 2), ("c", 3)]]⟩
          [("c", 9), ("d", 4)]).1.localAddr ≠ 1) ∧
     (∀ g : Store → Store,
        (((⟨0, 1⟩ : Memory).clone ⟨[[("a", 1)], [("b", 2), ("c", 3)]]⟩
              [("c", 9), ("d", 4)]).2.update
            ((⟨0, 1⟩ : Memory).clone ⟨[[("a", 1)], [("b", 2), ("c", 3)]]⟩
              [("c", 9), ("d", 4)]).1.localAddr g).get 1
          = ((⟨0, 1⟩ : Memory).clone ⟨[[("a", 1)], [("b", 2), ("c", 3)]]⟩
              [("c", 9), ("d", 4)]).2.get 1 ∧
        (((⟨0, 1⟩ : Memory).clone ⟨[[("a", 1)], [("b", 2), ("c", 3)]]⟩
              [("c", 9), ("d", 4)]).2.update 1 g).get
            ((⟨0, 1⟩ : Memory).clone ⟨[[("a", 1)], [("b", 2), ("c", 3)]]⟩
              [("c", 9), ("d", 4)]).1.localAddr
          = ((⟨0, 1⟩ : Memory).clone ⟨[[("a", 1)], [("b", 2), ("c", 3)]]⟩
              [("c", 9), ("d", 4)]).2.get
              ((⟨0, 1⟩ : Memory).clone ⟨[[("a", 1)], [("b", 2), ("c", 3)]]⟩
                [("c", 9), ("d", 4)]).1.localAddr) ∧
     (((⟨0, 1⟩ : Memory).clone ⟨[[("a", 1)], [("b", 2), ("c", 3)]]⟩
          [("c", 9), ("d", 4)]).1.globalAddr = 0)) := by
  have hmain := C3_clone_isolation ⟨0, 1⟩ ⟨[[("a", 1)], [("b", 2), ("c", 3)]]⟩
      [("c", 9), ("d", 4)] (by decide)
  exact ⟨by decide, hmain.1, hmain.2.1, hmain.2.2.1 (by decide), hmain.2.2.2.1,
    hmain.2.2.2.2.1, hmain.2.2.2.2.2⟩

/-- C8: setting any of the reserved keys through the primary write path
fails the assert and produces no updated heap, so both tiers stay as they
were (the assert is the first statement of _set_value, before any
mutation). -/
theorem C8_reserved_key_set_fails (m : Memory) (h : Heap) (k : Key) (v : Val)
    (hres : k ∈ reservedKeys) : m.setValue h k v = none := by
  simp [Memory.setValue, hres]

/-- C8 witness: setting the reserved key clone fails. -/
theorem C8_reserved_key_set_fails_witness :
    "clone" ∈ reservedKeys ∧
    (⟨0, 1⟩ : Memory).setValue ⟨[[("x", 1)], []]⟩ "clone" 5 = none :=
  ⟨by decide, C8_reserved_key_set_fails ⟨0, 1⟩ ⟨[[("x", 1)], []]⟩ "clone" 5 (by decide)⟩

/-! ## Node retry model (caskada.py lines 200-231)

Node.exec_runner runs exec up to max_retries times. A raised python error
is modelled as an AnnError: the underlying error value plus the optional
retry_count attribute (line 226 stamps it with the 1-based attempt number
only when absent). User exec is a function of the current attempt index,
since the code sets self.cur_retry = attempt right before each call and
exec may observe it; its other input, prep_res, is fixed (prep is not
recomputed between attempts). The inter-attempt asyncio.sleep(wait) only
delays and has no modelled effect. The event list instruments which
lifecycle callbacks ran, in order.
-/

structure AnnError (ε : Type) where
  err : ε
  retryCount : Option Nat
deriving DecidableEq

inductive RunnerResult (ε ρ : Type) where
  | ok : ρ → RunnerResult ε ρ
  | err : AnnError ε → RunnerResult ε ρ
  | runtimeError : String → RunnerResult ε ρ
deriving DecidableEq

inductive RunEvent where
  | prepCall : RunEvent
  | execCall : Nat → RunEvent
  | fallbackCall : RunEvent
deriving DecidableEq

/-- Model of line 226: stamp retry_count with attempt + 1 if absent. -/
def annotate {ε : Type} (e : AnnError ε) (attempt : Nat) : AnnError ε :=
  match e.retryCount with
  | none => { e with retryCount := some (attempt + 1) }
  | some _ => e

/-- A fallback either returns a recovered result or re-raises. -/
def liftFallback {ε ρ : Type} : Except (AnnError ε) ρ → RunnerResult ε ρ
  | .ok r => .ok r
  | .error e => .err e

def unreachableMsg : String :=
  "Unreachable: exec_runner should have returned or raised in the loop"

/-- Events for exec attempts attempt, attempt + 1, ... (count many). -/
def execCalls (attempt : Nat) : Nat → List RunEvent
  | 0 => []
  | count + 1 => .execCall attempt :: execCalls (attempt + 1) count

/-- Model of the retry loop of Node.exec_runner (caskada.py lines 222-230):
for attempt in range(max_retries), run exec; on success return; on failure
annotate the error, and either continue with the next attempt (when
attempt < max_retries - 1, here remaining > 1) or hand the annotated error
to exec_fallback. Structural recursion on remaining = max_retries -
attempt. -/
def execRunnerLoop {ε ρ : Type} (exec : Nat → Except (AnnError ε) ρ)
    (fallback : AnnError ε → Except (AnnError ε) ρ) :
    (remaining : Nat) → (attempt : Nat) → RunnerResult ε ρ × List RunEvent
  | 0, _ => (.runtimeError unreachableMsg, [])
  | rem + 1, attempt =>
    match exec attempt with
    | .ok r => (.ok r, [.execCall attempt])
    | .error e =>
      let e1 := annotate e attempt
      if rem > 0 then
        let r := execRunnerLoop exec fallback rem (attempt + 1)
        (r.1, .execCall attempt :: r.2)
      else
        (liftFallback (fallback e1), [.execCall attempt, .fallbackCall])

/-- Model of Node.exec_runner (lines 220-231): the loop starting at
attempt 0; when max_retries = 0 the loop body never runs and the trailing
raise RuntimeError fires. -/
def execRunner {ε ρ : Type} (maxRetries : Nat) (exec : Nat → Except (AnnError ε) ρ)
    (fallback : AnnError ε → Except (AnnError ε) ρ) : RunnerResult ε ρ × List RunEvent :=
  execRunnerLoop exec fallback maxRetries 0

/-- Model of the default Node.exec_fallback (lines 216-218): re-raise the
error unchanged. -/
def defaultFallback {ε ρ : Type} (e : AnnError ε) : Except (AnnError ε) ρ := .error e

/-- Model of BaseNode.run (lines 183-198) restricted to what the retry
claims observe: prep runs exactly once, its result is handed to every exec
attempt and to the fallback, then exec_runner runs. -/
def nodeRun {π ε ρ : Type} (maxRetries : Nat) (prep : Unit → π)
    (exec : π → Nat → Except (AnnError ε) ρ)
    (fallback : π → AnnError ε → Except (AnnError ε) ρ) :
    RunnerResult ε ρ × List RunEvent :=
  let p := prep ()
  let r := execRunner maxRetries (exec p) (fallback p)
  (r.1, .prepCall :: r.2)

/-! ### Retry loop lemmas -/

theorem execRunnerLoop_success {ε ρ : Type} (exec : Nat → Except (AnnError ε) ρ)
    (fallback : AnnError ε → Except (AnnError ε) ρ) (v : ρ) :
    ∀ (j rem attempt : Nat), j < rem →
      (∀ i, i < j → ∃ e, exec (attempt + i) = Except.error e) →
      exec (attempt + j) = Except.ok v →
      execRunnerLoop exec fallback rem attempt = (.ok v, execCalls attempt (j + 1)) := by
  intro j
  induction j with
  | zero =>
    intro rem attempt hlt hfail hsucc
    obtain ⟨rem, rfl⟩ : ∃ r, rem = r + 1 := ⟨rem - 1, by omega⟩
    simp only [Nat.add_zero] at hsucc
    simp [execRunnerLoop, hsucc, execCalls]
  | succ j ih =>
    intro rem attempt hlt hfail hsucc
    obtain ⟨rem, rfl⟩ : ∃ r, rem = r + 1 := ⟨rem - 1, by omega⟩
    obtain ⟨e0, he0⟩ := hfail 0 (Nat.zero_lt_succ j)
    simp only [Nat.add_zero] at he0
    have hrem : j < rem := Nat.lt_of_succ_lt_succ hlt
    have hrpos : rem > 0 := Nat.lt_of_le_of_lt (Nat.zero_le j) hrem
    have hrec := ih rem (attempt + 1) hrem
      (fun i hi => by
        obtain ⟨e, he⟩ := hfail (i + 1) (Nat.succ_lt_succ hi)
        exact ⟨e, by rw [show attempt + 1 + i = attempt + (i + 1) by omega]; exact he⟩)
      (by rw [show attempt + 1 + j = attempt + (j + 1) by omega]; exact hsucc)
    simp [execRunnerLoop, he0, hrpos, hrec, execCalls]

theorem execRunnerLoop_allfail {ε ρ : Type} (exec : Nat → Except (AnnError ε) ρ)
    (fallback : AnnError ε → Except (AnnError ε) ρ) :
    ∀ (rem attempt : Nat), 0 < rem →
      (∀ i, i < rem → ∃ e, exec (attempt + i) = Except.error e ∧ e.retryCount = none) →
      ∃ e, exec (attempt + (rem - 1)) = Except.error e ∧ e.retryCount = none ∧
        execRunnerLoop exec fallback rem attempt
          = (liftFallback (fallback ⟨e.err, some (attempt + rem)⟩),
             execCalls attempt rem ++ [.fallbackCall]) := by
  intro rem
  induction rem with
  | zero => intro attempt h; omega
  | succ rem ih =>
    intro attempt _ hfail
    cases rem with
    | zero =>
      obtain ⟨e, he, hrc⟩ := hfail 0 Nat.one_pos
      simp only [Nat.add_zero] at he
      refine ⟨e, by simpa using he, hrc, ?_⟩
      simp [execRunnerLoop, he, execCalls, annotate, hrc]
    | succ r =>
      obtain ⟨e0, he0, _⟩ := hfail 0 (Nat.zero_lt_succ (r + 1))
      simp only [Nat.add_zero] at he0
      obtain ⟨e, he, hrc, hrec⟩ := ih (attempt + 1) (Nat.zero_lt_succ r)
        (fun i hi => by
          obtain ⟨e, he, hrc⟩ := hfail (i + 1) (Nat.succ_lt_succ hi)
          exact ⟨e, by rw [show attempt + 1 + i = attempt + (i + 1) by omega]; exact he, hrc⟩)
      refine ⟨e, ?_, hrc, ?_⟩
      · rw [show attempt + (r + 1 + 1 - 1) = attempt + 1 + (r + 1 - 1) by omega]
        exact he
      · have hstep : execRunnerLoop exec fallback (r + 1 + 1) attempt
            = ((execRunnerLoop exec fallback (r + 1) (attempt + 1)).1,
               .execCall attempt :: (execRunnerLoop exec fallback (r + 1) (attempt + 1)).2) := by
          conv_lhs => rw [execRunnerLoop]
          simp [he0]
        rw [show attempt + (r + 1 + 1) = attempt + 1 + (r + 1) by omega]
        rw [hstep, hrec]
        simp [execCalls]

theorem execCalls_eq_range (n : Nat) : ∀ a : Nat,
    execCalls a n = (List.range n).map (fun i => RunEvent.execCall (a + i)) := by
  induction n with
  | zero => intro a; simp [execCalls]
  | succ n ih =>
    intro a
    rw [List.range_succ_eq_map]
    simp only [List.map_cons, List.map_map, Nat.add_zero]
    rw [execCalls, ih (a + 1)]
    congr 1
    apply List.map_congr_left
    intro i _
    simp only [Function.comp_apply]
    exact congrArg RunEvent.execCall (by omega)

theorem execCalls_zero (n : Nat) :
    execCalls 0 n = (List.range n).map RunEvent.execCall := by
  rw [execCalls_eq_range n 0]
  simp

theorem execRunnerLoop_no_runtimeError {ε ρ : Type} (exec : Nat → Except (AnnError ε) ρ)
    (fallback : AnnError ε → Except (AnnError ε) ρ) :
    ∀ (rem attempt : Nat), 0 < rem → ∀ s,
      (execRunnerLoop exec fallback rem attempt).1 ≠ .runtimeError s := by
  intro rem
  induction rem with
  | zero => intro attempt h; omega
  | succ rem ih =>
    intro attempt _ s
    rw [execRunnerLoop]
    cases hx : exec attempt with
    | ok r => simp
    | error e =>
      by_cases hr : rem > 0
      · simpa [hr] using ih (attempt + 1) hr s
      · simp only [hr, if_false]
        cases hfb : fallback (annotate e attempt) <;> simp [liftFallback, hfb]

/-! ## Claims about Node retries -/

/-- C5: with maxAttempts = N, an exec that fails exactly k times (k < N)
and then succeeds makes run return the success value, with exec attempted
exactly k + 1 times, execFallback never invoked, and prep run exactly once
before the attempts (its result is fixed across them); an exec that fails
on all N attempts makes run invoke execFallback exactly once, right after
the N-th attempt, handing it the final error annotated with the 1-based
attempt count retry_count = N. -/
theorem C5_retry_fallback {π ε ρ : Type} (N k : Nat) (prep : Unit → π)
    (exec1 exec2 : π → Nat → Except (AnnError ε) ρ)
    (fallback : π → AnnError ε → Except (AnnError ε) ρ) (v : ρ) :
    (k < N →
     (∀ i, i < k → ∃ e, exec1 (prep ()) i = Except.error e) →
     exec1 (prep ()) k = Except.ok v →
     nodeRun N prep exec1 fallback
       = (.ok v, .prepCall :: (List.range (k + 1)).map RunEvent.execCall)) ∧
    (0 < N →
     (∀ i, i < N → ∃ e, exec2 (prep ()) i = Except.error e ∧ e.retryCount = none) →
     ∃ e, exec2 (prep ()) (N - 1) = Except.error e ∧
       nodeRun N prep exec2 fallback
         = (liftFallback (fallback (prep ()) ⟨e.err, some N⟩),
            .prepCall :: ((List.range N).map RunEvent.execCall ++ [.fallbackCall]))) := by
  constructor
  · intro hk hfail hsucc
    have hloop := execRunnerLoop_success (exec1 (prep ())) (fallback (prep ())) v k N 0 hk
      (fun i hi => by simpa using hfail i hi) (by simpa using hsucc)
    simp [nodeRun, execRunner, hloop, execCalls_zero]
  · intro hN hfail
    obtain ⟨e, he, hrc, hloop⟩ := execRunnerLoop_allfail (exec2 (prep ())) (fallback (prep ()))
      N 0 hN (fun i hi => by simpa using hfail i hi)
    refine ⟨e, by simpa using he, ?_⟩
    simp only [Nat.zero_add] at hloop
    simp [nodeRun, execRunner, hloop, execCalls_zero]

/-- C5 witness: exec1 fails once then succeeds (k = 1 < N = 2); exec2
always fails; the default re-raising fallback is used. -/
theorem C5_retry_fallback_witness :
    (nodeRun 2 (fun _ => (10 : Nat))
        (fun p i => if i = 0 then Except.error ⟨7, none⟩ else Except.ok (p + i))
        (fun _ e => (Except.error e : Except (AnnError Nat) Nat))
      = (.ok 11, .prepCall :: (List.range 2).map RunEvent.execCall)) ∧
    (∃ e, (fun (_ : Nat) (i : Nat) => (Except.error ⟨i, none⟩ : Except (AnnError Nat) Nat)) 10 (2 - 1)
          = Except.error e ∧
       nodeRun 2 (fun _ => (10 : Nat))
          (fun _ i => (Except.error ⟨i, none⟩ : Except (AnnError Nat) Nat))
          (fun _ e => (Except.error e : Except (AnnError Nat) Nat))
        = (liftFallback ((fun (_ : Nat) (e : AnnError Nat) => (Except.error e : Except (AnnError Nat) Nat)) 10 ⟨e.err, some 2⟩),
           .prepCall :: ((List.range 2).map RunEvent.execCall ++ [.fallbackCall]))) := by
  have hmain := C5_retry_fallback (π := Nat) (ε := Nat) (ρ := Nat) 2 1 (fun _ => 10)
    (fun p i => if i = 0 then Except.error ⟨7, none⟩ else Except.ok (p + i))
    (fun _ i => Except.error ⟨i, none⟩)
    (fun _ e => Except.error e) 11
  constructor
  · exact hmain.1 (by decide)
      (fun i hi => by
        have hi0 : i = 0 := by omega
        subst hi0
        exact ⟨⟨7, none⟩, rfl⟩)
      rfl
  · exact hmain.2 (by decide) (fun i hi => ⟨⟨i, none⟩, rfl, rfl⟩)

/-- C10: a Node constructed with max_retries = 0 runs prep and then fails
with the trailing RuntimeError of exec_runner, never invoking exec or
execFallback; with max_retries >= 1 that trailing raise is unreachable. -/
theorem C10_zero_retries {π ε ρ : Type} (prep : Unit → π)
    (exec : π → Nat → Except (AnnError ε) ρ)
    (fallback : π → AnnError ε → Except (AnnError ε) ρ) :
    (nodeRun 0 prep exec fallback = (.runtimeError unreachableMsg, [.prepCall])) ∧
    (∀ N, 1 ≤ N → ∀ s, (nodeRun N prep exec fallback).1 ≠ .runtimeError s) := by
  constructor
  · simp [nodeRun, execRunner, execRunnerLoop]
  · intro N hN s
    have := execRunnerLoop_no_runtimeError (exec (prep ())) (fallback (prep ())) N 0 hN s
    simpa [nodeRun, execRunner] using this

/-- C10 witness: a trivial node run at max_retries 0 and 1. -/
theorem C10_zero_retries_witness :
    (nodeRun 0 (fun _ => (0 : Nat))
        (fun _ _ => (Except.ok 1 : Except (AnnError Nat) Nat))
        (fun _ e => Except.error e)
      = (.runtimeError unreachableMsg, [.prepCall])) ∧
    (nodeRun 1 (fun _ => (0 : Nat))
        (fun _ _ => (Except.ok 1 : Except (AnnError Nat) Nat))
        (fun _ e => Except.error e)).1 ≠ .runtimeError "boom" :=
  ⟨(C10_zero_retries _ _ _).1, (C10_zero_retries _ _ _).2 1 (by decide) "boom"⟩

/-! ## Actions and triggers (caskada.py lines 10-11, 23-25)

Actions are strings; the None action does not occur in any claim and is
elided. A trigger pairs an action with its forking data.
-/

abbrev Action := String

def DEFAULT_ACTION : Action := "default"

structure Trigger where
  action : Action
  forkingData : Store
deriving DecidableEq

/-! ## Trigger lock model (caskada.py lines 96-101, 162-165, 183-198)

The lock protocol of BaseNode: _locked is true from construction onwards,
run releases it only around the post phase. User code inside a phase is
modelled as a sequence of commands, each either a trigger call or
engine-opaque work.
-/

structure TrigState where
  triggers : List Trigger
  locked : Bool
deriving DecidableEq

/-- Model of the BaseNode constructor state (lines 96-101): empty trigger
list, lock held. -/
def initTrigState : TrigState := ⟨[], true⟩

def lockMsg : String := "An action can only be triggered inside post()"

/-- Model of BaseNode.trigger (lines 162-165): the assert fails whenever
the lock is held; otherwise the (action, forking_data) pair is appended. -/
def triggerCall (s : TrigState) (a : Action) (fd : Store) : Except String TrigState :=
  if s.locked then .error lockMsg
  else .ok { s with triggers := s.triggers ++ [⟨a, fd⟩] }

/-- User code within one lifecycle phase as the lock sees it: trigger
calls interleaved with engine-opaque work. -/
inductive PhaseCmd where
  | doTrigger : Action → Store → PhaseCmd
  | opaqueWork : PhaseCmd
deriving DecidableEq

def runCmds : List PhaseCmd → TrigState → Except String TrigState
  | [], s => .ok s
  | .opaqueWork :: cs, s => runCmds cs s
  | .doTrigger a fd :: cs, s => (triggerCall s a fd).bind (runCmds cs)

/-- Model of BaseNode.run (lines 183-198) for the lock protocol: reset the
trigger list, run prep then exec with the lock as it stands (held), set
_locked to false, run post, set _locked back to true. -/
def runLockModel (prepCmds execCmds postCmds : List PhaseCmd) (s : TrigState) :
    Except String TrigState :=
  (runCmds prepCmds { s with triggers := [] }).bind fun s1 =>
  (runCmds execCmds s1).bind fun s2 =>
  (runCmds postCmds { s2 with locked := false }).bind fun s3 =>
  .ok { s3 with locked := true }

def hasTriggerCmd (cs : List PhaseCmd) : Bool :=
  cs.any fun c => match c with | .doTrigger _ _ => true | .opaqueWork => false

def cmdTriggers : List PhaseCmd → List Trigger
  | [] => []
  | .doTrigger a fd :: cs => ⟨a, fd⟩ :: cmdTriggers cs
  | .opaqueWork :: cs => cmdTriggers cs

/-! ### Lock lemmas -/

theorem runCmds_clean (cs : List PhaseCmd) :
    ∀ s : TrigState, hasTriggerCmd cs = false → runCmds cs s = .ok s := by
  induction cs with
  | nil => intro s _; rfl
  | cons c cs ih =>
    intro s hc
    cases c with
    | doTrigger a fd => simp [hasTriggerCmd] at hc
    | opaqueWork =>
      simp only [hasTriggerCmd, List.any_cons, Bool.or_eq_false_iff] at hc
      exact ih s (by simp [hasTriggerCmd, hc.2])

theorem runCmds_locked_trigger (cs : List PhaseCmd) :
    ∀ s : TrigState, s.locked = true → hasTriggerCmd cs = true →
      runCmds cs s = .error lockMsg := by
  induction cs with
  | nil => intro s _ ht; simp [hasTriggerCmd] at ht
  | cons c cs ih =>
    intro s hl ht
    cases c with
    | doTrigger a fd =>
      simp [runCmds, triggerCall, hl, Except.bind]
    | opaqueWork =>
      simp only [hasTriggerCmd, List.any_cons, Bool.false_or] at ht
      exact ih s hl (by simpa [hasTriggerCmd] using ht)

theorem runCmds_unlocked (cs : List PhaseCmd) :
    ∀ s : TrigState, s.locked = false →
      runCmds cs s = .ok ⟨s.triggers ++ cmdTriggers cs, false⟩ := by
  induction cs with
  | nil =>
    intro s hl
    cases s with
    | mk t l => simp only at hl; subst hl; simp [runCmds, cmdTriggers]
  | cons c cs ih =>
    intro s hl
    cases c with
    | doTrigger a fd =>
      simp only [runCmds, triggerCall, hl, Bool.false_eq_true, if_false, Except.bind]
      rw [ih _ (by simp [hl])]
      simp [cmdTriggers]
    | opaqueWork =>
      rw [runCmds, ih s hl]
      simp [cmdTriggers]

/-! ## Claim about the trigger lock -/

/-- C7: trigger fails with the lock assert at every point outside post and
succeeds during post: a freshly constructed node holds the lock; a trigger
call on any locked state fails; a lifecycle run whose prep or exec phase
contains a trigger call fails with the lock error; and a run whose trigger
calls all sit in post succeeds, records exactly those pairs in order, and
ends with the lock re-held, so a call after run has returned fails
again. -/
theorem C7_trigger_lock (prep1 exec1 post1 prep2 exec2 post2 : List PhaseCmd)
    (s : TrigState) (hl : s.locked = true) :
    (initTrigState.locked = true) ∧
    (∀ (s' : TrigState) (a : Action) (fd : Store), s'.locked = true →
        triggerCall s' a fd = .error lockMsg) ∧
    ((hasTriggerCmd prep1 || hasTriggerCmd exec1) = true →
        runLockModel prep1 exec1 post1 s = .error lockMsg) ∧
    (hasTriggerCmd prep2 = false → hasTriggerCmd exec2 = false →
        runLockModel prep2 exec2 post2 s = .ok ⟨cmdTriggers post2, true⟩) := by
  refine ⟨rfl, ?_, ?_, ?_⟩
  · intro s' a fd hl'
    simp [triggerCall, hl']
  · intro hor
    cases hp : hasTriggerCmd prep1 with
    | true =>
      unfold runLockModel
      rw [runCmds_locked_trigger prep1 { s with triggers := [] } (by simpa using hl) hp]
      rfl
    | false =>
      have he : hasTriggerCmd exec1 = true := by simpa [hp] using hor
      unfold runLockModel
      rw [runCmds_clean prep1 _ hp]
      simp only [Except.bind]
      rw [runCmds_locked_trigger exec1 { s with triggers := [] } (by simpa using hl) he]
  · intro hp he
    unfold runLockModel
    rw [runCmds_clean prep2 _ hp]
    simp only [Except.bind]
    rw [runCmds_clean exec2 _ he]
    simp only [Except.bind]
    rw [runCmds_unlocked post2 _ (by simp)]
    simp

/-- C7 witness: a run that triggers during exec fails; a run that triggers
only during post records the pair and ends re-locked. -/
theorem C7_trigger_lock_witness :
    (initTrigState.locked = true) ∧
    (triggerCall initTrigState "go" [] = .error lockMsg) ∧
    (runLockModel [.opaqueWork] [.doTrigger "go" []] [] initTrigState = .error lockMsg) ∧
    (runLockModel [.opaqueWork] [.opaqueWork] [.doTrigger "go" [("n", 1)]] initTrigState
      = .ok ⟨[⟨"go", [("n", 1)]⟩], true⟩) := by
  have hmain := C7_trigger_lock [.opaqueWork] [.doTrigger "go" []] []
    [.opaqueWork] [.opaqueWork] [.doTrigger "go" [("n", 1)]] initTrigState rfl
  exact ⟨hmain.1, hmain.2.1 initTrigState "go" [] rfl, hmain.2.2.1 (by decide),
    hmain.2.2.2 (by decide) (by decide)⟩

/-! ## Flow execution model (caskada.py lines 233-301)

Nodes of a flow graph live in an arena (a list); successors refer to
arena indices. A node carries its construction identity (order), its
class name, its successors, and its observable behaviour: the combined
effect of prep, exec with retries, and post on the memory it is handed,
together with the triggers recorded during post. Flow.run_node clones the
node before running it; cloning preserves order, successors and
behaviour (proved on the object-heap clone model below), so the executor
reads the arena node directly.

Execution threads an explicit engine state: the store heap, the per-run
visit counts, the _triggers list of the Flow itself, and a trace of the
orders of the nodes whose lifecycle ran, in order (instrumentation for
counting executions). Errors abort the run, leaving the state reached at
the raise point. Recursion is bounded by fuel; python recurses unboundedly
until the cycle check fires, so outOfFuel never corresponds to a python
outcome and every claim supplies enough fuel.
-/

inductive ExecTree where
  | mk : Nat → String → Option (List (Action × List ExecTree)) → ExecTree

def ExecTree.order : ExecTree → Nat
  | .mk o _ _ => o

def ExecTree.typeName : ExecTree → String
  | .mk _ t _ => t

def ExecTree.triggered : ExecTree → Option (List (Action × List ExecTree))
  | .mk _ _ tr => tr

structure FlowNode where
  order : Nat
  typeName : String
  lifecycle : Memory → Heap → Heap × List Trigger
  successors : List (Action × List Nat)

def defaultFlowNode : FlowNode := ⟨0, "", fun _ h => (h, []), []⟩

abbrev Graph := List FlowNode

def getNode (g : Graph) (i : Nat) : FlowNode := g.getD i defaultFlowNode

/-- Model of BaseNode.get_next_nodes (lines 143-148): successor list for
the action, empty when none registered; the warning is non-fatal and
elided. -/
def get_next_nodes (node : FlowNode) (action : Action) : List Nat :=
  (List.lookup action node.successors).getD []

/-- Python dict assignment d[k] = v: overwrite in place when the key is
present (keeping its insertion position), append otherwise. -/
def dictInsert {κ α : Type} [BEq κ] (d : List (κ × α)) (k : κ) (v : α) : List (κ × α) :=
  if d.any (fun p => p.1 == k) then d.map (fun p => if p.1 == k then (k, v) else p)
  else d ++ [(k, v)]

/-- Clone the memory once per trigger, threading the heap (the list
comprehension of line 172). -/
def cloneEach (memory : Memory) : List Trigger → Heap → List (Action × Memory) × Heap
  | [], h => ([], h)
  | t :: ts, h =>
    let c := memory.clone h t.forkingData
    let rest := cloneEach memory ts c.2
    ((t.action, c.1) :: rest.1, rest.2)

/-- Model of BaseNode.list_triggers (lines 167-172): with no recorded
trigger, a single implicit default pair on a plain clone; otherwise one
pair per trigger, cloning with its forking data. -/
def list_triggers (triggers : List Trigger) (memory : Memory) (h : Heap) :
    List (Action × Memory) × Heap :=
  if triggers.isEmpty then
    let c := memory.clone h []
    ([(DEFAULT_ACTION, c.1)], c.2)
  else cloneEach memory triggers h

/-- The pairs one visit produces (lines 279 and 167-172): clone the
incoming memory with no forking data, run the cloned node lifecycle on
it, then list_triggers. Returns the pairs, the heap afterwards, and the
raw trigger list the node recorded. -/
def nodePairs (node : FlowNode) (mem : Memory) (h : Heap) :
    List (Action × Memory) × Heap × List Trigger :=
  let c := mem.clone h []
  let lr := node.lifecycle c.1 c.2
  let pr := list_triggers lr.2 c.1 lr.1
  (pr.1, pr.2, lr.2)

structure FlowSt where
  heap : Heap
  visits : List (Nat × Nat)
  flowTriggers : List Trigger
  trace : List Nat

inductive FlowErr where
  | cycleLimit : Nat → Nat → FlowErr
  | outOfFuel : FlowErr
deriving DecidableEq

structure LoopAcc where
  tasks : List (Action × List Nat × Memory)
  triggered : List (Action × List ExecTree)
  newTriggers : List Trigger

/-- One iteration of the trigger loop of run_node (lines 283-291): a pair
whose action has successors becomes a task; otherwise, when the node
emitted at least one explicit trigger, the pair becomes a pending trigger
of the Flow itself, with the local store of the derived memory as forking
data, and the action is logged as leading to no further nodes; the
implicit default pair with no successors is dropped. -/
def processPair (node : FlowNode) (hasExplicit : Bool) (h : Heap)
    (acc : LoopAcc) (p : Action × Memory) : LoopAcc :=
  let nextNodes := get_next_nodes node p.1
  if nextNodes.isEmpty then
    if hasExplicit then
      { acc with newTriggers := acc.newTriggers ++ [⟨p.1, h.get p.2.localAddr⟩],
                 triggered := dictInsert acc.triggered p.1 [] }
    else acc
  else { acc with tasks := acc.tasks ++ [(p.1, nextNodes, p.2)] }

def triggerLoop (node : FlowNode) (hasExplicit : Bool) (h : Heap)
    (pairs : List (Action × Memory)) : LoopAcc :=
  pairs.foldl (processPair node hasExplicit h) ⟨[], [], []⟩

/-- Model of Flow.run_nodes (lines 264-269) under the sequential
Flow.run_tasks (lines 257-262): run each node in order with the same
memory, threading state, aborting on the first error. -/
def runNodesWith (runner : Nat → Memory → FlowSt → Except FlowErr ExecTree × FlowSt) :
    List Nat → Memory → FlowSt → Except FlowErr (List ExecTree) × FlowSt
  | [], _, st => (.ok [], st)
  | n :: ns, mem, st =>
    match runner n mem st with
    | (.error e, st') => (.error e, st')
    | (.ok t, st') =>
      match runNodesWith runner ns mem st' with
      | (.error e, st'') => (.error e, st'')
      | (.ok ts, st'') => (.ok (t :: ts), st'')

/-- Model of the task batch of run_node (lines 281-295) under sequential
run_tasks with _process_trigger (lines 299-301): each task resolves one
action by running all its successor nodes. -/
def runTasksWith (runner : Nat → Memory → FlowSt → Except FlowErr ExecTree × FlowSt) :
    List (Action × List Nat × Memory) → FlowSt →
      Except FlowErr (List (Action × List ExecTree)) × FlowSt
  | [], st => (.ok [], st)
  | t :: ts, st =>
    match runNodesWith runner t.2.1 t.2.2 st with
    | (.error e, st') => (.error e, st')
    | (.ok trees, st') =>
      match runTasksWith runner ts st' with
      | (.error e, st'') => (.error e, st'')
      | (.ok rest, st'') => (.ok ((t.1, trees) :: rest), st'')

/-- Model of Flow.run_node (lines 271-297): bump the per-identity visit
count, failing when it would exceed max_visits; run the cloned node
lifecycle on a cloned memory and list its trigger pairs; sort the pairs
into successor tasks and terminal flow triggers; run the tasks
sequentially; assemble the triggered dict (terminal actions first, then
one entry per task, python dict update order) and the execution-record
node, with an empty dict normalised to None. -/
def runNode (g : Graph) (maxVisits : Nat) : Nat → Nat → Memory → FlowSt →
    Except FlowErr ExecTree × FlowSt
  | 0, _, _, st => (.error .outOfFuel, st)
  | fuel + 1, id, mem, st =>
    let node := getNode g id
    let count := (List.lookup node.order st.visits).getD 0 + 1
    if maxVisits < count then (.error (.cycleLimit maxVisits node.order), st)
    else
      let np := nodePairs node mem st.heap
      let acc := triggerLoop node (!np.2.2.isEmpty) np.2.1 np.1
      let st1 : FlowSt := ⟨np.2.1, dictInsert st.visits node.order count,
        st.flowTriggers ++ acc.newTriggers, st.trace ++ [node.order]⟩
      match runTasksWith (fun n m s => runNode g maxVisits fuel n m s) acc.tasks st1 with
      | (.error e, st2) => (.error e, st2)
      | (.ok results, st2) =>
        let triggered := results.foldl (fun d p => dictInsert d p.1 p.2) acc.triggered
        (.ok (.mk node.order node.typeName
          (if triggered.isEmpty then none else some triggered)), st2)

/-- Model of Flow.run on a raw global store (lines 183-198, 242-255):
wrap the store in a fresh Memory (the global dict shared by reference,
empty local), reset visit counts and the trigger list, run the start
node, and return its execution tree (the exec result of run with
propagate false) along with the final engine state. -/
def runFlow (g : Graph) (start maxVisits fuel : Nat) (globalStore : Store) :
    Except FlowErr ExecTree × FlowSt :=
  runNode g maxVisits fuel start ⟨0, 1⟩ ⟨⟨[globalStore, []]⟩, [], [], []⟩

/-! ## The end-to-end scenario (claim about Flow.run) -/

/-- Start step of the end-to-end scenario: its post phase emits
trigger("go", n = 1); its "go" successor is the node at index 1. -/
def c1StartNode : FlowNode :=
  { order := 0, typeName := "TriggerNode",
    lifecycle := fun _ h => (h, [⟨"go", [("n", 1)]⟩]),
    successors := [("go", [1])] }

/-- Successor registered on "go": reads key n (local tier first) and
writes the value back through the primary write path (global write,
local shadow cleared); emits no explicit trigger. -/
def c1SuccNode : FlowNode :=
  { order := 1, typeName := "WriteNode",
    lifecycle := fun m h =>
      match m.getValue h "n" with
      | some v => ((m.setValue h "n" v).getD h, [])
      | none => (h, []),
    successors := [] }

def c1Graph : Graph := [c1StartNode, c1SuccNode]

/-- C1 counterexample: in the end-to-end scenario the successor leaf
record is (order 1, WriteNode, triggered = None) and not
(triggered = default mapped to an empty list) as the claim states: the
implicit default pair with no successors is never entered into the
triggered dict (the elif of line 288 requires an explicit trigger), and
the empty dict is normalised to None by line 297. -/
theorem C1_counterexample :
    (runFlow c1Graph 0 15 3 [("n", 0)]).1
      = .ok (.mk 0 "TriggerNode" (some [("go", [.mk 1 "WriteNode" none])])) ∧
    (ExecTree.mk 1 "WriteNode" (none : Option (List (Action × List ExecTree))))
      ≠ ExecTree.mk 1 "WriteNode" (some [(DEFAULT_ACTION, ([] : List ExecTree))]) := by
  refine ⟨rfl, ?_⟩
  intro hcontra
  injection hcontra with h1 h2 h3
  exact Option.noConfusion h3

/-- C1 amended: running the scenario Flow on global n = 0 yields final
global n = 1 and the record tree (0, TriggerNode, go mapped to the
successor record); the start record maps the explicitly triggered "go"
to the list of records of its resolved successors, while the successor,
whose only pair is the implicit default with no successors, gets
triggered = None (nothing recorded, empty dict normalised to None)
rather than an entry mapping the default action to an empty list. -/
theorem C1_end_to_end :
    (runFlow c1Graph 0 15 3 [("n", 0)]).1
      = .ok (.mk 0 "TriggerNode" (some [("go", [.mk 1 "WriteNode" none])])) ∧
    (runFlow c1Graph 0 15 3 [("n", 0)]).2.heap.get 0 = [("n", 1)] :=
  ⟨rfl, rfl⟩

/-! ### dictInsert lemmas -/

theorem beq_symm_false {κ : Type} [BEq κ] [LawfulBEq κ] (a b : κ)
    (h : (a == b) = false) : (b == a) = false := by
  cases hq : b == a with
  | false => rfl
  | true =>
    have hba : b = a := by simpa using hq
    subst hba
    exact absurd h (by simp)

theorem lookup_map_overwrite {κ α : Type} [BEq κ] [LawfulBEq κ]
    (k : κ) (v : α) :
    ∀ d : List (κ × α), d.any (fun p => p.1 == k) = true →
      List.lookup k (d.map (fun p => if p.1 == k then (k, v) else p)) = some v := by
  intro d
  induction d with
  | nil => intro ha; simp at ha
  | cons p rest ih =>
    obtain ⟨pk, pv⟩ := p
    intro ha
    rw [List.map_cons]
    by_cases hb : pk = k
    · subst hb
      rw [if_pos (beq_self_eq_true pk)]
      simp [List.lookup]
    · have hb1 : ((pk, pv).1 == k) = false := by simpa using hb
      rw [if_neg (by simpa using hb)]
      have ha' : rest.any (fun p => p.1 == k) = true := by
        simpa [hb1] using ha
      simpa [List.lookup, beq_symm_false pk k hb1] using ih ha'

theorem lookup_append_single {κ α : Type} [BEq κ] [LawfulBEq κ]
    (k : κ) (v : α) :
    ∀ d : List (κ × α), d.any (fun p => p.1 == k) = false →
      List.lookup k (d ++ [(k, v)]) = some v := by
  intro d
  induction d with
  | nil => intro _; simp [List.lookup]
  | cons p rest ih =>
    obtain ⟨pk, pv⟩ := p
    intro ha
    simp only [List.any_cons, Bool.or_eq_false_iff] at ha
    simpa [List.lookup, beq_symm_false pk k ha.1] using ih ha.2

theorem Heap.get_append_length (A : List Store) (L : Store) :
    (⟨A ++ [L]⟩ : Heap).get A.length = L := by
  simp [Heap.get, List.getD_append_right]

theorem lookup_dictInsert_self {κ α : Type} [BEq κ] [LawfulBEq κ]
    (d : List (κ × α)) (k : κ) (v : α) :
    List.lookup k (dictInsert d k v) = some v := by
  unfold dictInsert
  cases ha : d.any (fun p => p.1 == k) with
  | true => simp only [if_true]; exact lookup_map_overwrite k v d ha
  | false => simp only [Bool.false_eq_true, if_false]; exact lookup_append_single k v d ha

/-! ## Self-loop cycle bound (claim about run_node cycle detection) -/

/-- A step wired to itself on the default action: its lifecycle does
nothing and records no trigger, so the implicit default resolves to the
node itself on every visit. -/
def loopNode : FlowNode :=
  { order := 0, typeName := "LoopNode",
    lifecycle := fun _ h => (h, []),
    successors := [(DEFAULT_ACTION, [0])] }

def loopGraph : Graph := [loopNode]

theorem loopGraph_run (N : Nat) :
    ∀ (rem fuel : Nat) (mem : Memory) (st : FlowSt), rem ≤ N →
      (List.lookup 0 st.visits).getD 0 = N - rem → rem + 1 ≤ fuel →
      ∃ st', runNode loopGraph N fuel 0 mem st = (.error (.cycleLimit N 0), st') ∧
        st'.trace.length = st.trace.length + rem := by
  intro rem
  induction rem with
  | zero =>
    intro fuel mem st hrem hvc hfuel
    obtain ⟨f, rfl⟩ : ∃ f, fuel = f + 1 := ⟨fuel - 1, by omega⟩
    refine ⟨st, ?_, by omega⟩
    rw [runNode]
    simp only [show getNode loopGraph 0 = loopNode from rfl,
      show loopNode.order = 0 from rfl, hvc]
    rw [if_pos (by omega)]
  | succ rem ih =>
    intro fuel mem st hrem hvc hfuel
    obtain ⟨f, rfl⟩ : ∃ f, fuel = f + 1 := ⟨fuel - 1, by omega⟩
    have hcnt : (List.lookup 0 st.visits).getD 0 + 1 = N - rem := by omega
    obtain ⟨st'', hrun, htr⟩ := ih f
      ⟨mem.globalAddr, st.heap.cells.length + 1⟩
      ⟨⟨st.heap.cells ++ [st.heap.get mem.localAddr, st.heap.get mem.localAddr]⟩,
        dictInsert st.visits 0 (N - rem), st.flowTriggers, st.trace ++ [0]⟩
      (by omega)
      (by simp [lookup_dictInsert_self])
      (by omega)
    refine ⟨st'', ?_, by simp at htr; omega⟩
    rw [runNode]
    simp only [show getNode loopGraph 0 = loopNode from rfl,
      show loopNode.order = 0 from rfl, hcnt]
    rw [if_neg (by omega)]
    simp only [nodePairs, list_triggers, cloneEach, Memory.clone, Heap.alloc,
      Heap.length, Store.updateWith, List.foldl, List.isEmpty,
      show loopNode.lifecycle = fun _ h => (h, []) from rfl,
      show loopNode.typeName = "LoopNode" from rfl,
      triggerLoop, processPair,
      show get_next_nodes loopNode DEFAULT_ACTION = [0] from rfl,
      runTasksWith, runNodesWith, List.nil_append]
    simp only [Heap.get_append_length, List.length_append, List.length_singleton,
      List.append_assoc, List.singleton_append]
    simp only [if_true, Bool.not_true, Bool.false_eq_true, if_false]
    simp
    rw [hrun]

/-- C4: a step wired to trigger itself on the default action, run inside a
Flow with max_visits = N (N at least 1), has its lifecycle execute exactly
N times (the trace records one entry per execution) and the run then fails
with the cycle-limit error raised on the (N + 1)-th visit, exactly because
that visit count would exceed N; any fuel above N suffices, matching the
unbounded python recursion. -/
theorem C4_cycle_limit (N fuel : Nat) (g0 : Store) (_hN : 1 ≤ N) (hfuel : N + 1 ≤ fuel) :
    ∃ st', runFlow loopGraph 0 N fuel g0 = (.error (.cycleLimit N 0), st') ∧
      st'.trace.length = N := by
  obtain ⟨st', hrun, htr⟩ := loopGraph_run N N fuel ⟨0, 1⟩ ⟨⟨[g0, []]⟩, [], [], []⟩
    (Nat.le_refl N) (by simp) (by omega)
  exact ⟨st', by simpa [runFlow] using hrun, by simpa using htr⟩

/-- C4 witness: the self-loop under max_visits = 2 runs twice then fails. -/
theorem C4_cycle_limit_witness :
    ∃ st', runFlow loopGraph 0 2 3 [] = (.error (.cycleLimit 2 0), st') ∧
      st'.trace.length = 2 :=
  C4_cycle_limit 2 3 [] (by decide) (by decide)

/-! ### Monotonicity of the Flow trigger list

run_node only ever appends to the _triggers list of the Flow; these
lemmas state it for each layer of the recursion, in the equation form
needed to chain them.
-/

theorem runNodesWith_flowTriggers
    (runner : Nat → Memory → FlowSt → Except FlowErr ExecTree × FlowSt)
    (hr : ∀ n m s res st', runner n m s = (res, st') →
       ∃ l, st'.flowTriggers = s.flowTriggers ++ l) :
    ∀ (ns : List Nat) (mem : Memory) (st : FlowSt) res st',
      runNodesWith runner ns mem st = (res, st') →
      ∃ l, st'.flowTriggers = st.flowTriggers ++ l := by
  intro ns
  induction ns with
  | nil =>
    intro mem st res st' h
    simp only [runNodesWith, Prod.mk.injEq] at h
    exact ⟨[], by rw [← h.2]; simp⟩
  | cons n ns ih =>
    intro mem st res st' h
    simp only [runNodesWith] at h
    split at h
    next e st1 heq =>
      obtain ⟨l1, hl1⟩ := hr n mem st _ _ heq
      simp only [Prod.mk.injEq] at h
      exact ⟨l1, by rw [← h.2]; exact hl1⟩
    next t st1 heq =>
      obtain ⟨l1, hl1⟩ := hr n mem st _ _ heq
      split at h
      next e2 st2 heq2 =>
        obtain ⟨l2, hl2⟩ := ih mem st1 _ _ heq2
        simp only [Prod.mk.injEq] at h
        exact ⟨l1 ++ l2, by rw [← h.2, hl2, hl1, List.append_assoc]⟩
      next ts st2 heq2 =>
        obtain ⟨l2, hl2⟩ := ih mem st1 _ _ heq2
        simp only [Prod.mk.injEq] at h
        exact ⟨l1 ++ l2, by rw [← h.2, hl2, hl1, List.append_assoc]⟩

theorem runTasksWith_flowTriggers
    (runner : Nat → Memory → FlowSt → Except FlowErr ExecTree × FlowSt)
    (hr : ∀ n m s res st', runner n m s = (res, st') →
       ∃ l, st'.flowTriggers = s.flowTriggers ++ l) :
    ∀ (ts : List (Action × List Nat × Memory)) (st : FlowSt) res st',
      runTasksWith runner ts st = (res, st') →
      ∃ l, st'.flowTriggers = st.flowTriggers ++ l := by
  intro ts
  induction ts with
  | nil =>
    intro st res st' h
    simp only [runTasksWith, Prod.mk.injEq] at h
    exact ⟨[], by rw [← h.2]; simp⟩
  | cons t ts ih =>
    intro st res st' h
    simp only [runTasksWith] at h
    split at h
    next e st1 heq =>
      obtain ⟨l1, hl1⟩ := runNodesWith_flowTriggers runner hr _ _ _ _ _ heq
      simp only [Prod.mk.injEq] at h
      exact ⟨l1, by rw [← h.2]; exact hl1⟩
    next trees st1 heq =>
      obtain ⟨l1, hl1⟩ := runNodesWith_flowTriggers runner hr _ _ _ _ _ heq
      split at h
      next e2 st2 heq2 =>
        obtain ⟨l2, hl2⟩ := ih st1 _ _ heq2
        simp only [Prod.mk.injEq] at h
        exact ⟨l1 ++ l2, by rw [← h.2, hl2, hl1, List.append_assoc]⟩
      next rest st2 heq2 =>
        obtain ⟨l2, hl2⟩ := ih st1 _ _ heq2
        simp only [Prod.mk.injEq] at h
        exact ⟨l1 ++ l2, by rw [← h.2, hl2, hl1, List.append_assoc]⟩

theorem runNode_flowTriggers (g : Graph) (maxVisits : Nat) :
    ∀ (fuel n : Nat) (mem : Memory) (st : FlowSt) res st',
      runNode g maxVisits fuel n mem st = (res, st') →
      ∃ l, st'.flowTriggers = st.flowTriggers ++ l := by
  intro fuel
  induction fuel with
  | zero =>
    intro n mem st res st' h
    simp only [runNode, Prod.mk.injEq] at h
    exact ⟨[], by rw [← h.2]; simp⟩
  | succ fuel ih =>
    intro n mem st res st' h
    simp only [runNode] at h
    split at h
    · simp only [Prod.mk.injEq] at h
      exact ⟨[], by rw [← h.2]; simp⟩
    · split at h
      next e st2 heq =>
        obtain ⟨l2, hl2⟩ := runTasksWith_flowTriggers _
          (fun n m s res st' hh => ih n m s res st' hh) _ _ _ _ heq
        simp only [Prod.mk.injEq] at h
        dsimp only at hl2
        rw [List.append_assoc] at hl2
        exact ⟨_, by rw [← h.2]; exact hl2⟩
      next results st2 heq =>
        obtain ⟨l2, hl2⟩ := runTasksWith_flowTriggers _
          (fun n m s res st' hh => ih n m s res st' hh) _ _ _ _ heq
        simp only [Prod.mk.injEq] at h
        dsimp only at hl2
        rw [List.append_assoc] at hl2
        exact ⟨_, by rw [← h.2]; exact hl2⟩

theorem processPair_newTriggers_mono (node : FlowNode) (he : Bool) (h : Heap)
    (acc : LoopAcc) (q : Action × Memory) (t : Trigger) (ht : t ∈ acc.newTriggers) :
    t ∈ (processPair node he h acc q).newTriggers := by
  simp only [processPair]
  cases h1 : (get_next_nodes node q.1).isEmpty with
  | true =>
    cases he with
    | true => simp; exact Or.inl ht
    | false => simpa using ht
  | false => simpa using ht

theorem foldl_processPair_mono (node : FlowNode) (he : Bool) (h : Heap) :
    ∀ (pairs : List (Action × Memory)) (acc : LoopAcc) (t : Trigger),
      t ∈ acc.newTriggers →
      t ∈ (pairs.foldl (processPair node he h) acc).newTriggers := by
  intro pairs
  induction pairs with
  | nil => intro acc t ht; simpa using ht
  | cons q rest ih =>
    intro acc t ht
    rw [List.foldl_cons]
    exact ih _ _ (processPair_newTriggers_mono node he h acc q t ht)

theorem foldl_processPair_mem (node : FlowNode) (h : Heap) :
    ∀ (pairs : List (Action × Memory)) (acc : LoopAcc) (p : Action × Memory),
      p ∈ pairs → get_next_nodes node p.1 = [] →
      (⟨p.1, h.get p.2.localAddr⟩ : Trigger)
        ∈ (pairs.foldl (processPair node true h) acc).newTriggers := by
  intro pairs
  induction pairs with
  | nil => intro acc p hp _; simp at hp
  | cons q rest ih =>
    intro acc p hp hnone
    rw [List.foldl_cons]
    rcases List.mem_cons.mp hp with hq | hrest
    · subst hq
      apply foldl_processPair_mono
      unfold processPair
      rw [hnone]
      simp
    · exact ih _ _ hrest hnone

/-! ## Claim about terminal trigger propagation -/

/-- C6: during run_node, a produced (action, derivedMemory) pair whose
action resolves to no successors, coming from a step that emitted at
least one explicit trigger, is appended to the pending trigger list of
the Flow itself, with the local store of the derived memory as forking
data (so a nested Flow surfaces the terminal action to its embedding
Flow); the implicit default pair with no successors propagates nothing.
The count hypothesis says the cycle guard passes so the trigger loop is
reached. -/
theorem C6_terminal_trigger_propagation (g : Graph) (maxVisits fuel id : Nat)
    (mem : Memory) (st : FlowSt)
    (hcount : (List.lookup (getNode g id).order st.visits).getD 0 + 1 ≤ maxVisits) :
    (∀ p ∈ (nodePairs (getNode g id) mem st.heap).1,
        get_next_nodes (getNode g id) p.1 = [] →
        (nodePairs (getNode g id) mem st.heap).2.2 ≠ [] →
        (⟨p.1, (nodePairs (getNode g id) mem st.heap).2.1.get p.2.localAddr⟩ : Trigger)
          ∈ (runNode g maxVisits (fuel + 1) id mem st).2.flowTriggers) ∧
    ((nodePairs (getNode g id) mem st.heap).2.2 = [] →
     get_next_nodes (getNode g id) DEFAULT_ACTION = [] →
     (runNode g maxVisits (fuel + 1) id mem st).2.flowTriggers = st.flowTriggers) := by
  constructor
  · intro p hp hnone htr
    have hE : (!(nodePairs (getNode g id) mem st.heap).2.2.isEmpty) = true := by
      cases hx : (nodePairs (getNode g id) mem st.heap).2.2 with
      | nil => exact absurd hx htr
      | cons a l => simp
    simp only [runNode]
    rw [if_neg (by omega)]
    split
    next e st2 heq =>
      obtain ⟨l2, hl2⟩ := runTasksWith_flowTriggers _
        (fun n m s res st' hh => runNode_flowTriggers g maxVisits fuel n m s res st' hh)
        _ _ _ _ heq
      dsimp only
      rw [hl2]
      dsimp only
      refine List.mem_append_left _ (List.mem_append_right _ ?_)
      rw [hE] at *
      exact foldl_processPair_mem _ _ _ _ p hp hnone
    next results st2 heq =>
      obtain ⟨l2, hl2⟩ := runTasksWith_flowTriggers _
        (fun n m s res st' hh => runNode_flowTriggers g maxVisits fuel n m s res st' hh)
        _ _ _ _ heq
      dsimp only
      rw [hl2]
      dsimp only
      refine List.mem_append_left _ (List.mem_append_right _ ?_)
      rw [hE] at *
      exact foldl_processPair_mem _ _ _ _ p hp hnone
  · intro htr hnone
    obtain ⟨m', hm'⟩ : ∃ m', (nodePairs (getNode g id) mem st.heap).1
        = [(DEFAULT_ACTION, m')] := by
      simp only [nodePairs] at htr ⊢
      rw [list_triggers, if_pos (by rw [htr]; rfl)]
      exact ⟨_, rfl⟩
    simp only [runNode]
    rw [if_neg (by omega)]
    rw [hm', htr]
    simp only [triggerLoop, List.foldl_cons, List.foldl_nil]
    rw [processPair, hnone]
    simp only [List.isEmpty_nil, if_true, Bool.not_true, Bool.false_eq_true, if_false]
    simp [runTasksWith]

/-- A step that explicitly triggers "done" (with forking data x = 7) and
has no successors at all. -/
def c6Node : FlowNode :=
  { order := 0, typeName := "TermNode",
    lifecycle := fun _ h => (h, [⟨"done", [("x", 7)]⟩]),
    successors := [] }

def c6Graph : Graph := [c6Node]

/-- A step that emits nothing (implicit default) and has no successors. -/
def c6bNode : FlowNode :=
  { order := 0, typeName := "QuietNode",
    lifecycle := fun _ h => (h, []),
    successors := [] }

def c6bGraph : Graph := [c6bNode]

/-- C6 witness: the explicit terminal action "done" lands in the
pending triggers of the Flow with the derived local store as forking
data; the quiet node propagates nothing. -/
theorem C6_terminal_trigger_propagation_witness :
    ((⟨"done", [("x", 7)]⟩ : Trigger)
        ∈ (runNode c6Graph 15 1 0 ⟨0, 1⟩ ⟨⟨[[], []]⟩, [], [], []⟩).2.flowTriggers) ∧
    ((runNode c6bGraph 15 1 0 ⟨0, 1⟩ ⟨⟨[[], []]⟩, [], [], []⟩).2.flowTriggers = []) := by
  constructor
  · exact (C6_terminal_trigger_propagation c6Graph 15 0 0 ⟨0, 1⟩
      ⟨⟨[[], []]⟩, [], [], []⟩ (by decide)).1
      ("done", ⟨0, 3⟩) (by decide) (by decide) (by decide)
  · exact (C6_terminal_trigger_propagation c6bGraph 15 0 0 ⟨0, 1⟩
      ⟨⟨[[], []]⟩, [], [], []⟩ (by decide)).2 rfl rfl

/-! ## Object-heap model of BaseNode cloning (caskada.py lines 95-118)

Graph nodes are mutable python objects: reference identity drives the
seen map of clone (keyed by object identity) and the claim that clones
are new objects carrying the same _node_order. Objects live in an object
heap (address = index, allocation appends). A NodeObj keeps the
identity-relevant state: the _node_order copied by clone, and the
successors mapping that clone rebuilds; the remaining attributes
(_triggers, _locked, retry fields) are copied wholesale by the same loop
and play no part in the identity claims.
-/

structure NodeObj where
  order : Nat
  successors : List (Action × List Nat)
deriving DecidableEq

abbrev ObjHeap := List NodeObj

def defaultNodeObj : NodeObj := ⟨0, []⟩

def ObjHeap.getObj (h : ObjHeap) (a : Nat) : NodeObj := h.getD a defaultNodeObj

abbrev Seen := List (Nat × Nat)

/-- Model of BaseNode.__init__ (lines 96-101): a fresh node takes the
class-wide next id as its _node_order and bumps the counter. -/
def nodeInit (nextId : Nat) : NodeObj × Nat := (⟨nextId, []⟩, nextId + 1)

/-- Clone the nodes of one successor list in order, threading heap and
seen map (the list comprehension of line 116); the cloner argument is the
recursive clone at smaller fuel. -/
def cloneList (cloner : ObjHeap → Nat → Seen → Option (Nat × ObjHeap × Seen)) :
    List Nat → ObjHeap → Seen → Option (List Nat × ObjHeap × Seen)
  | [], h, seen => some ([], h, seen)
  | n :: ns, h, seen =>
    match cloner h n seen with
    | none => none
    | some (c, h', seen') =>
      match cloneList cloner ns h' seen' with
      | none => none
      | some (cs, h'', seen'') => some (c :: cs, h'', seen'')

/-- Clone every successor entry (the loop of lines 115-116). -/
def cloneSuccs (cloner : ObjHeap → Nat → Seen → Option (Nat × ObjHeap × Seen)) :
    List (Action × List Nat) → ObjHeap → Seen →
      Option (List (Action × List Nat) × ObjHeap × Seen)
  | [], h, seen => some ([], h, seen)
  | (a, ns) :: rest, h, seen =>
    match cloneList cloner ns h seen with
    | none => none
    | some (cs, h', seen') =>
      match cloneSuccs cloner rest h' seen' with
      | none => none
      | some (rs, h'', seen'') => some ((a, cs) :: rs, h'', seen'')

/-- Model of BaseNode.clone (lines 103-118): a revisited node returns its
already-created clone from the identity-keyed seen map; otherwise a new
object is allocated copying the attributes other than successors (in
particular _node_order), registered in the seen map before recursing, and
its successors mapping is then rebuilt from the recursively cloned
successor nodes. Fuel bounds the recursion depth; the seen map makes the
python recursion terminate, and the claims supply enough fuel. -/
def cloneNode : Nat → ObjHeap → Nat → Seen → Option (Nat × ObjHeap × Seen)
  | 0, _, _, _ => none
  | fuel + 1, h, addr, seen =>
    match List.lookup addr seen with
    | some c => some (c, h, seen)
    | none =>
      let orig := ObjHeap.getObj h addr
      let newAddr := h.length
      let h1 := h ++ [{ orig with successors := [] }]
      let seen1 := (addr, newAddr) :: seen
      match cloneSuccs (fun h' a s => cloneNode fuel h' a s) orig.successors h1 seen1 with
      | none => none
      | some (succ, h2, seen2) =>
        some (newAddr, h2.set newAddr { orig with successors := succ }, seen2)

/-! ### Object heap lemmas -/

theorem getObj_append_lt (h : ObjHeap) (x : NodeObj) (i : Nat) (hi : i < h.length) :
    ObjHeap.getObj (h ++ [x]) i = ObjHeap.getObj h i := by
  simp [ObjHeap.getObj, List.getD, List.getElem?_append_left hi]

theorem getObj_append_length (h : ObjHeap) (x : NodeObj) :
    ObjHeap.getObj (h ++ [x]) h.length = x := by
  simp [ObjHeap.getObj, List.getD]

theorem getObj_set_ne (h : ObjHeap) (a i : Nat) (x : NodeObj) (hne : a ≠ i) :
    ObjHeap.getObj (h.set a x) i = ObjHeap.getObj h i := by
  simp [ObjHeap.getObj, List.getD, List.getElem?_set_ne hne]

theorem getObj_set_self (h : ObjHeap) (a : Nat) (x : NodeObj) (ha : a < h.length) :
    ObjHeap.getObj (h.set a x) a = x := by
  simp [ObjHeap.getObj, List.getD, List.getElem?_set_self ha]

theorem mem_of_lookup_eq_some {κ β : Type} [BEq κ] [LawfulBEq κ] :
    ∀ (l : List (κ × β)) (a : κ) (b : β), List.lookup a l = some b → (a, b) ∈ l := by
  intro l
  induction l with
  | nil => intro a b h; simp [List.lookup] at h
  | cons p rest ih =>
    obtain ⟨pk, pv⟩ := p
    intro a b h
    rw [List.lookup] at h
    cases hq : a == pk with
    | true =>
      rw [hq] at h
      simp only [Option.some.injEq] at h
      have ha : a = pk := by simpa using hq
      subst ha
      subst h
      exact List.mem_cons_self _ _
    | false =>
      rw [hq] at h
      exact List.mem_cons_of_mem _ (ih a b h)

/-! ### The clone invariant

Relative to the pre-clone heap h0: the heap only grows, the original
objects are never touched, and every pair of the seen map maps a live
original address to a fresh clone address whose object carries the same
order.
-/

def WFGraph (h : ObjHeap) : Prop :=
  ∀ i, i < h.length → ∀ e ∈ (ObjHeap.getObj h i).successors, ∀ n ∈ e.2, n < h.length

instance (h : ObjHeap) : Decidable (WFGraph h) := by
  unfold WFGraph; infer_instance

def CloneInv (h0 h : ObjHeap) (seen : Seen) : Prop :=
  h0.length ≤ h.length ∧
  (∀ i, i < h0.length → ObjHeap.getObj h i = ObjHeap.getObj h0 i) ∧
  (∀ p ∈ seen, p.1 < h0.length ∧ h0.length ≤ p.2 ∧ p.2 < h.length ∧
     (ObjHeap.getObj h p.2).order = (ObjHeap.getObj h0 p.1).order)

/-- What one call of a cloner must guarantee: the invariant is preserved,
the heap only grows, the cloned pair is registered, the seen map only
grows, and every new seen pair points at a fresh address. -/
def ClonerOK (h0 : ObjHeap)
    (cloner : ObjHeap → Nat → Seen → Option (Nat × ObjHeap × Seen)) : Prop :=
  ∀ h addr seen c h' seen', CloneInv h0 h seen → addr < h0.length →
    cloner h addr seen = some (c, h', seen') →
    CloneInv h0 h' seen' ∧ h.length ≤ h'.length ∧ (addr, c) ∈ seen' ∧
    (∀ p ∈ seen, p ∈ seen') ∧ (∀ p ∈ seen', p ∈ seen ∨ h.length ≤ p.2)

theorem cloneList_ok (h0 : ObjHeap)
    (cloner : ObjHeap → Nat → Seen → Option (Nat × ObjHeap × Seen))
    (hc : ClonerOK h0 cloner) :
    ∀ (ns : List Nat) (h : ObjHeap) (seen : Seen) r h' seen',
      CloneInv h0 h seen → (∀ n ∈ ns, n < h0.length) →
      cloneList cloner ns h seen = some (r, h', seen') →
      CloneInv h0 h' seen' ∧ h.length ≤ h'.length ∧
      (∀ p ∈ seen, p ∈ seen') ∧ (∀ p ∈ seen', p ∈ seen ∨ h.length ≤ p.2) := by
  intro ns
  induction ns with
  | nil =>
    intro h seen r h' seen' hinv _ heq
    simp only [cloneList, Option.some.injEq, Prod.mk.injEq] at heq
    obtain ⟨-, rfl, rfl⟩ := heq
    exact ⟨hinv, Nat.le_refl _, fun p hp => hp, fun p hp => Or.inl hp⟩
  | cons n ns ih =>
    intro h seen r h' seen' hinv hns heq
    simp only [cloneList] at heq
    split at heq
    · exact absurd heq (by simp)
    next c1 h1 seen1 heq1 =>
      split at heq
      · exact absurd heq (by simp)
      next cs h2 seen2 heq2 =>
        simp only [Option.some.injEq, Prod.mk.injEq] at heq
        obtain ⟨-, rfl, rfl⟩ := heq
        obtain ⟨hinv1, hlen1, -, hsub1, hnew1⟩ :=
          hc h n seen c1 h1 seen1 hinv (hns n (List.mem_cons_self n ns)) heq1
        obtain ⟨hinv2, hlen2, hsub2, hnew2⟩ :=
          ih h1 seen1 _ _ _ hinv1 (fun m hm => hns m (List.mem_cons_of_mem n hm)) heq2
        refine ⟨hinv2, Nat.le_trans hlen1 hlen2, fun p hp => hsub2 p (hsub1 p hp), ?_⟩
        intro p hp
        rcases hnew2 p hp with hp1 | hfresh
        · rcases hnew1 p hp1 with hp0 | hfresh0
          · exact Or.inl hp0
          · exact Or.inr hfresh0
        · exact Or.inr (Nat.le_trans hlen1 hfresh)

theorem cloneSuccs_ok (h0 : ObjHeap)
    (cloner : ObjHeap → Nat → Seen → Option (Nat × ObjHeap × Seen))
    (hc : ClonerOK h0 cloner) :
    ∀ (ss : List (Action × List Nat)) (h : ObjHeap) (seen : Seen) r h' seen',
      CloneInv h0 h seen → (∀ e ∈ ss, ∀ n ∈ e.2, n < h0.length) →
      cloneSuccs cloner ss h seen = some (r, h', seen') →
      CloneInv h0 h' seen' ∧ h.length ≤ h'.length ∧
      (∀ p ∈ seen, p ∈ seen') ∧ (∀ p ∈ seen', p ∈ seen ∨ h.length ≤ p.2) := by
  intro ss
  induction ss with
  | nil =>
    intro h seen r h' seen' hinv _ heq
    simp only [cloneSuccs, Option.some.injEq, Prod.mk.injEq] at heq
    obtain ⟨-, rfl, rfl⟩ := heq
    exact ⟨hinv, Nat.le_refl _, fun p hp => hp, fun p hp => Or.inl hp⟩
  | cons e rest ih =>
    intro h seen r h' seen' hinv hss heq
    obtain ⟨a, ns⟩ := e
    simp only [cloneSuccs] at heq
    split at heq
    · exact absurd heq (by simp)
    next cs h1 seen1 heq1 =>
      split at heq
      · exact absurd heq (by simp)
      next rs h2 seen2 heq2 =>
        simp only [Option.some.injEq, Prod.mk.injEq] at heq
        obtain ⟨-, rfl, rfl⟩ := heq
        obtain ⟨hinv1, hlen1, hsub1, hnew1⟩ :=
          cloneList_ok h0 cloner hc ns h seen cs h1 seen1 hinv
            (fun m hm => hss (a, ns) (List.mem_cons_self _ _) m hm) heq1
        obtain ⟨hinv2, hlen2, hsub2, hnew2⟩ :=
          ih h1 seen1 _ _ _ hinv1
            (fun e2 he2 => hss e2 (List.mem_cons_of_mem _ he2)) heq2
        refine ⟨hinv2, Nat.le_trans hlen1 hlen2, fun p hp => hsub2 p (hsub1 p hp), ?_⟩
        intro p hp
        rcases hnew2 p hp with hp1 | hfresh
        · rcases hnew1 p hp1 with hp0 | hfresh0
          · exact Or.inl hp0
          · exact Or.inr hfresh0
        · exact Or.inr (Nat.le_trans hlen1 hfresh)

theorem cloneNode_ok (h0 : ObjHeap) (hwf : WFGraph h0) :
    ∀ fuel : Nat, ClonerOK h0 (fun h a s => cloneNode fuel h a s) := by
  intro fuel
  induction fuel with
  | zero =>
    intro h addr seen c h' seen' _ _ heq
    simp [cloneNode] at heq
  | succ fuel ih =>
    intro h addr seen c h' seen' hinv haddr heq
    simp only [cloneNode] at heq
    split at heq
    next c0 hlk =>
      simp only [Option.some.injEq, Prod.mk.injEq] at heq
      obtain ⟨rfl, rfl, rfl⟩ := heq
      exact ⟨hinv, Nat.le_refl _, mem_of_lookup_eq_some _ _ _ hlk,
        fun p hp => hp, fun p hp => Or.inl hp⟩
    next hlk =>
      split at heq
      · exact absurd heq (by simp)
      next succ h2 seen2 heq2 =>
        simp only [Option.some.injEq, Prod.mk.injEq] at heq
        obtain ⟨rfl, rfl, rfl⟩ := heq
        have horig : ObjHeap.getObj h addr = ObjHeap.getObj h0 addr :=
          hinv.2.1 addr haddr
        have hlen01 : h0.length ≤ h.length := hinv.1
        have hinv1 : CloneInv h0
            (h ++ [{ ObjHeap.getObj h addr with successors := [] }])
            ((addr, h.length) :: seen) := by
          refine ⟨by simp; omega, ?_, ?_⟩
          · intro i hi
            rw [getObj_append_lt _ _ i (by omega)]
            exact hinv.2.1 i hi
          · intro p hp
            rcases List.mem_cons.mp hp with rfl | hp0
            · refine ⟨haddr, hlen01, by simp, ?_⟩
              rw [getObj_append_length, horig]
            · obtain ⟨h1, h2', h3, h4⟩ := hinv.2.2 p hp0
              refine ⟨h1, h2', by simp; omega, ?_⟩
              rw [getObj_append_lt _ _ p.2 h3]
              exact h4
        have hss : ∀ e ∈ (ObjHeap.getObj h addr).successors, ∀ n ∈ e.2, n < h0.length := by
          rw [horig]
          exact hwf addr haddr
        obtain ⟨hinv2, hlen2, hsub2, hnew2⟩ :=
          cloneSuccs_ok h0 _ ih _ _ _ _ _ _ hinv1 hss heq2
        obtain ⟨h2len, h2orig, h2pairs⟩ := hinv2
        have hlen12 : h.length + 1 ≤ h2.length := by
          simpa using hlen2
        have hnlt2 : h.length < h2.length := by omega
        refine ⟨⟨by simp; omega, ?_, ?_⟩, by simp; omega, ?_, ?_, ?_⟩
        · intro i hi
          rw [getObj_set_ne _ _ i _ (by omega)]
          exact h2orig i hi
        · intro p hp
          by_cases hpa : p.2 = h.length
          · have hp1 : p = (addr, h.length) := by
              rcases hnew2 p hp with hp1 | hfresh
              · rcases List.mem_cons.mp hp1 with rfl | hp0
                · rfl
                · obtain ⟨-, -, hlt, -⟩ := hinv.2.2 p hp0
                  omega
              · simp at hfresh
                omega
            subst hp1
            refine ⟨haddr, hlen01, by simp; omega, ?_⟩
            rw [getObj_set_self _ _ _ hnlt2, horig]
          · obtain ⟨hb1, hb2, hb3, hb4⟩ := h2pairs p hp
            refine ⟨hb1, hb2, by simp; omega, ?_⟩
            rw [getObj_set_ne _ _ p.2 _ (fun he => hpa he.symm)]
            exact hb4
        · exact hsub2 _ (List.mem_cons_self _ _)
        · intro p hp
          exact hsub2 p (List.mem_cons_of_mem _ hp)
        · intro p hp
          rcases hnew2 p hp with hp1 | hfresh
          · rcases List.mem_cons.mp hp1 with rfl | hp0
            · exact Or.inr (Nat.le_refl _)
            · exact Or.inl hp0
          · refine Or.inr ?_
            simp at hfresh
            omega

/-! ## Claim about clone and identity -/

/-- C9: on a well-formed node graph, clone maps (per the final seen map)
each cloned original - the root and every node reached through
successors - to a new object at a fresh address, carrying the same
_node_order; the original objects are untouched; consequently the root
and its clone are distinct live objects with equal identity, so once
clones exist an identity no longer names a unique live object (and a
visit counter keyed by order counts them together). Distinct constructed
nodes, by contrast, receive distinct, strictly increasing orders from
the class-wide counter. -/
theorem C9_clone_preserves_identity (h0 : ObjHeap) (addr fuel c : Nat)
    (h' : ObjHeap) (seen' : Seen)
    (hwf : WFGraph h0) (haddr : addr < h0.length)
    (heq : cloneNode fuel h0 addr [] = some (c, h', seen')) :
    ((addr, c) ∈ seen') ∧
    (∀ p ∈ seen', (ObjHeap.getObj h' p.2).order = (ObjHeap.getObj h0 p.1).order) ∧
    (∀ p ∈ seen', h0.length ≤ p.2) ∧
    (∀ i, i < h0.length → ObjHeap.getObj h' i = ObjHeap.getObj h0 i) ∧
    (c ≠ addr ∧ (ObjHeap.getObj h' c).order = (ObjHeap.getObj h' addr).order) ∧
    (∀ n : Nat, (nodeInit n).1.order = n ∧ (nodeInit n).2 = n + 1 ∧
       (nodeInit ((nodeInit n).2)).1.order > (nodeInit n).1.order) := by
  have hinv0 : CloneInv h0 h0 [] := ⟨Nat.le_refl _, fun i _ => rfl, by simp⟩
  obtain ⟨⟨hlen, horig, hpairs⟩, -, hmem, -, -⟩ :=
    cloneNode_ok h0 hwf fuel h0 addr [] c h' seen' hinv0 haddr heq
  refine ⟨hmem, ?_, ?_, horig, ?_, ?_⟩
  · intro p hp
    exact (hpairs p hp).2.2.2
  · intro p hp
    exact (hpairs p hp).2.1
  · obtain ⟨hp1, hp2, hp3, hp4⟩ := hpairs _ hmem
    dsimp only at hp1 hp2 hp3 hp4
    refine ⟨by omega, ?_⟩
    rw [hp4, horig addr haddr]
  · intro n
    exact ⟨rfl, rfl, Nat.lt_succ_self n⟩

def c9Heap : ObjHeap := [⟨7, [("default", [0])]⟩]

/-- C9 witness: cloning a self-loop node of order 7 yields a second,
distinct object of order 7 and leaves the original untouched; the
cycle-safe seen map short-circuits the self reference. -/
theorem C9_clone_preserves_identity_witness :
    ((0, 1) ∈ ([(0, 1)] : Seen)) ∧
    (∀ p ∈ ([(0, 1)] : Seen),
       (ObjHeap.getObj [⟨7, [("default", [0])]⟩, ⟨7, [("default", [1])]⟩] p.2).order
         = (ObjHeap.getObj c9Heap p.1).order) ∧
    (∀ p ∈ ([(0, 1)] : Seen), c9Heap.length ≤ p.2) ∧
    (∀ i, i < c9Heap.length →
       ObjHeap.getObj [⟨7, [("default", [0])]⟩, ⟨7, [("default", [1])]⟩] i
         = ObjHeap.getObj c9Heap i) ∧
    ((1 : Nat) ≠ 0 ∧
      (ObjHeap.getObj [⟨7, [("default", [0])]⟩, ⟨7, [("default", [1])]⟩] 1).order
        = (ObjHeap.getObj [⟨7, [("default", [0])]⟩, ⟨7, [("default", [1])]⟩] 0).order) ∧
    (∀ n : Nat, (nodeInit n).1.order = n ∧ (nodeInit n).2 = n + 1 ∧
       (nodeInit ((nodeInit n).2)).1.order > (nodeInit n).1.order) :=
  C9_clone_preserves_identity c9Heap 0 2 1
    [⟨7, [("default", [0])]⟩, ⟨7, [("default", [1])]⟩] [(0, 1)]
    (by decide) (by decide) rfl

end Caskada
